import Mathlib

/-!
# Verification of the openenvx core against its specification

This file gives a shallow embedding of the three core subsystems of the
openenvx repository — the per-secret envelope encryption engine
(`internal/crypto`), the self-contained time-boxed agent envelope protocol
(`internal/envelope`), and the hash-chained audit log (`internal/audit`) —
and settles the frozen claims about them.

## Modelling conventions

* Byte strings are modelled by the inductive type `Bytes`.  Concrete byte
  strings (Go strings converted with `[]byte(s)`) are `Bytes.str s`; the
  outputs of the cryptographic primitives are modelled symbolically, in the
  standard perfect-cryptography (Dolev–Yao) style:
  - `Bytes.box key nonce pt aad` is the byte string returned by
    `AESGCM.Seal` (file `internal/crypto/master.go` companion, function
    `EncryptAESGCM`): the random 96-bit nonce prepended to the AES-GCM
    output.  `gcmOpen` recovers the plaintext exactly when it is given the
    same key and the same associated data, mirroring the fact that AES-GCM
    authentication fails for a wrong key or wrong aad; the prepended-nonce
    mechanics of `Seal`/`Open` are folded into the constructor.
  - `Bytes.rnd i` is a fresh 32-byte random value (a DEK from
    `GenerateDEK`, a session key, an unwrap secret); callers of the model
    pass randomness explicitly.
  - `Bytes.wrapKeyOf s` is `deriveWrapKey(s)` of the envelope package:
    `SHA-256(s ‖ "openenvx-envelope-v1")[:32]`; all the code needs from it
    is that it is a deterministic function of `s`, which the constructor
    provides.
  The associated data handed to AES-GCM is always either `nil` or
  `[]byte(keyName)`; since AES-GCM treats `nil` and empty aad identically,
  aad is modelled as a `String`, with `""` for `nil`.
* Base64: the code base64-encodes byte strings into text fields and decodes
  them on the way back (`base64.StdEncoding`).  Valid base64 text is in
  bijection with byte strings, so the type `B64` represents a text field as
  either `B64.enc b` (the valid base64 encoding of the byte string `b`) or
  `B64.bad s` (a string that is not valid base64); `b64decode` inverts
  `B64.enc` and fails on `B64.bad`, exactly the behaviour of
  `base64.StdEncoding.DecodeString`.
* `map[string]T` values are modelled as association lists
  `List (String × T)` with first-match `List.lookup` semantics.
* Go `time.Time` values are modelled as nanoseconds since the epoch
  (`Nat`); `t.After u` is `u < t`, and formatting with `time.RFC3339`
  truncates to whole seconds (`truncSec`).
-/

namespace Openenvx

/-- Symbolic byte strings (see the header for the reading of each
constructor). -/
inductive Bytes where
  | str : String → Bytes
  | rnd : Nat → Bytes
  | wrapKeyOf : Bytes → Bytes
  | box : Bytes → Nat → Bytes → String → Bytes
deriving DecidableEq, Repr

/-- The Go string contents of a concrete byte string (`string(b)`); the
code only ever converts back to `string` byte strings that were produced
from strings, i.e. `Bytes.str` values. -/
def Bytes.asStr : Bytes → String
  | .str s => s
  | _ => ""

/-- `DecryptAESGCM key c aad` / `AESGCM.Open`: succeeds, returning the
sealed plaintext, exactly when the ciphertext is a seal under the same key
and the same associated data (AES-GCM authentication); fails on anything
else (wrong key, wrong aad, or bytes that are not a seal output at all). -/
def gcmOpen (key : Bytes) (c : Bytes) (aad : String) : Option Bytes :=
  match c with
  | .box k _ p a => if k = key ∧ a = aad then some p else none
  | _ => none

/-- A text field holding either valid base64 of a byte string or a string
that is not valid base64. -/
inductive B64 where
  | enc : Bytes → B64
  | bad : String → B64
deriving DecidableEq, Repr

/-- `base64.StdEncoding.DecodeString`: inverts the encoding, fails on
invalid base64. -/
def b64decode : B64 → Option Bytes
  | .enc b => some b
  | .bad _ => none

/-- Formatting a `time.Time` with the `time.RFC3339` layout keeps whole
seconds only; on nanoseconds-since-epoch this is truncation to the
containing second. -/
def truncSec (t : Nat) : Nat := t / 1000000000 * 1000000000

namespace crypto

/-- `EncryptedValue` (envelope.go): the two base64 text fields of the
persisted per-secret format. -/
structure EncryptedValue where
  WrappedDEK : B64
  Ciphertext : B64
deriving DecidableEq, Repr

/-- The `Envelope` struct of envelope.go: holds the master key. -/
structure Envelope where
  masterKey : Bytes
deriving DecidableEq, Repr

/-- `Envelope.Encrypt` (envelope.go lines 45–65): generate a fresh DEK
(passed in as `dek`, with the two fresh nonces `n1`, `n2` drawn inside the
two `Seal` calls), seal the plaintext under the DEK with aad = `keyName`
(`DEK.Encrypt`), seal the DEK under the master key with nil aad
(`wrapDEK`), and base64-encode both outputs. -/
def Envelope.Encrypt (e : Envelope) (dek : Bytes) (n1 n2 : Nat)
    (plaintext : Bytes) (keyName : String) : EncryptedValue :=
  { WrappedDEK := .enc (Bytes.box e.masterKey n2 dek "")
    Ciphertext := .enc (Bytes.box dek n1 plaintext keyName) }

/-- The error cases of `Envelope.Decrypt`, in source order: the two base64
decode failures ("failed to decode …") and the two AEAD open failures
("failed to unwrap DEK" / "failed to decrypt"). -/
inductive DecryptErr where
  | malformedWrappedDEK
  | unwrapFailed
  | malformedCiphertext
  | openFailed
deriving DecidableEq, Repr

/-- `Envelope.Decrypt` (envelope.go lines 67–89): base64-decode the wrapped
DEK, unwrap it under the master key (nil aad), base64-decode the
ciphertext, then open it under the recovered DEK with aad = `keyName`. -/
def Envelope.Decrypt (e : Envelope) (ev : EncryptedValue) (keyName : String) :
    Except DecryptErr Bytes :=
  match b64decode ev.WrappedDEK with
  | none => .error .malformedWrappedDEK
  | some wrapped =>
    match gcmOpen e.masterKey wrapped "" with
    | none => .error .unwrapFailed
    | some dek =>
      match b64decode ev.Ciphertext with
      | none => .error .malformedCiphertext
      | some ct =>
        match gcmOpen dek ct keyName with
        | none => .error .openFailed
        | some pt => .ok pt

/-- The two parse failures of `ParseEncryptedValue`, in source order:
"not an encrypted value" (missing `envx:` marker) and "invalid encrypted
value format" (no colon after the marker). -/
inductive EVErr where
  | notAnEncryptedValue
  | invalidFormat
deriving DecidableEq, Repr

/-- The characters of the literal `EncryptedValuePrefix` constant
`"envx:"`. -/
def evTag : List Char := ['e', 'n', 'v', 'x', ':']

/-- `strings.SplitN(s, ":", 2)` restricted to the case the caller checks:
`some (a, b)` when `s = a ++ ":" ++ b` with `a` colon-free (the split at
the first colon), `none` when `s` has no colon (Go returns a 1-element
slice, which the caller rejects). -/
def splitFirst : List Char → Option (List Char × List Char)
  | [] => none
  | c :: rest =>
    if c = ':' then some ([], rest)
    else
      match splitFirst rest with
      | none => none
      | some (a, b) => some (c :: a, b)

/-- The Boolean predicate "is not a colon", the continuation condition of
the splits below. -/
def notColon (c : Char) : Bool := c != ':'

/-- `strings.Split(s, ":")`: the full colon split, used only to state
claims about segment counts. -/
def splitAll : List Char → List (List Char)
  | [] => [[]]
  | c :: rest =>
    if c = ':' then [] :: splitAll rest
    else
      match splitAll rest with
      | [] => [[c]]
      | a :: more => (c :: a) :: more

/-- `ParseEncryptedValue` (envelope.go lines 20–35), over the character
list of the input string: require the `envx:` marker, then split the
remainder at its first colon into `(WrappedDEK, Ciphertext)`. -/
def ParseEncryptedValue (cs : List Char) :
    Except EVErr (List Char × List Char) :=
  if evTag.isPrefixOf cs then
    match splitFirst (cs.drop 5) with
    | some (a, b) => .ok (a, b)
    | none => .error .invalidFormat
  else .error .notAnEncryptedValue

end crypto

section CryptoLemmas

theorem gcmOpen_box (key : Bytes) (n : Nat) (p : Bytes) (a : String) :
    gcmOpen key (Bytes.box key n p a) a = some p := by
  simp [gcmOpen]

theorem splitFirst_none_iff (cs : List Char) :
    crypto.splitFirst cs = none ↔ ':' ∉ cs := by
  induction cs with
  | nil => simp [crypto.splitFirst]
  | cons c rest ih =>
    rw [crypto.splitFirst]
    by_cases hc : c = ':'
    · subst hc
      simp
    · rw [if_neg hc]
      cases h : crypto.splitFirst rest with
      | none =>
        constructor
        · intro _
          simp only [List.mem_cons, not_or]
          exact ⟨fun he => hc he.symm, ih.mp h⟩
        · intro _
          rfl
      | some ab =>
        obtain ⟨a, b⟩ := ab
        constructor
        · intro habs
          exact Option.noConfusion habs
        · intro hnot
          exfalso
          simp only [List.mem_cons, not_or] at hnot
          have h2 := ih.mpr hnot.2
          rw [h2] at h
          exact Option.noConfusion h

theorem splitFirst_mem (cs : List Char) (h : ':' ∈ cs) :
    crypto.splitFirst cs =
      some (cs.takeWhile crypto.notColon, (cs.dropWhile crypto.notColon).tail) := by
  induction cs with
  | nil => cases h
  | cons c rest ih =>
    rw [crypto.splitFirst]
    by_cases hc : c = ':'
    · subst hc
      rw [if_pos rfl]
      simp [List.takeWhile, List.dropWhile, crypto.notColon]
    · have hmem : ':' ∈ rest := by
        rcases List.mem_cons.mp h with h1 | h2
        · exact absurd h1.symm hc
        · exact h2
      rw [if_neg hc, ih hmem]
      have hb : (c != ':') = true := bne_iff_ne.mpr hc
      simp [List.takeWhile, List.dropWhile, crypto.notColon, hb]

end CryptoLemmas

/-- Claim C1: for every master key, every plaintext byte string (the model
covers the empty string and arbitrary, including binary and Unicode,
contents), and every secret name, `Envelope.Decrypt` applied to the
`EncryptedValue` produced by `Envelope.Encrypt` with the same master key
and the same name returns exactly the original plaintext — for every fresh
DEK and every pair of nonces the two `Seal` calls may draw. -/
theorem crypto_encrypt_decrypt_roundtrip (mk dek : Bytes) (n1 n2 : Nat)
    (pt : Bytes) (name : String) :
    crypto.Envelope.Decrypt ⟨mk⟩
      (crypto.Envelope.Encrypt ⟨mk⟩ dek n1 n2 pt name) name = .ok pt := by
  simp [crypto.Envelope.Decrypt, crypto.Envelope.Encrypt, b64decode, gcmOpen]

/-- Claim C2: for every master key, plaintext and fresh randomness, and
every pair of distinct names `a ≠ b`, decrypting under name `b` an
`EncryptedValue` encrypted under name `a` always fails (with the final
AEAD-open failure, `"failed to decrypt"`) and never returns a plaintext. -/
theorem crypto_name_binding_decrypt_fails (mk dek : Bytes) (n1 n2 : Nat)
    (pt : Bytes) (a b : String) (hab : a ≠ b) :
    crypto.Envelope.Decrypt ⟨mk⟩
      (crypto.Envelope.Encrypt ⟨mk⟩ dek n1 n2 pt a) b =
      .error crypto.DecryptErr.openFailed := by
  simp [crypto.Envelope.Decrypt, crypto.Envelope.Encrypt, b64decode, gcmOpen, hab]

/-- Witness for C2 at concrete inputs: names "A" and "B". -/
theorem crypto_name_binding_decrypt_fails_inst :
    crypto.Envelope.Decrypt ⟨Bytes.rnd 0⟩
      (crypto.Envelope.Encrypt ⟨Bytes.rnd 0⟩ (Bytes.rnd 1) 0 1
        (Bytes.str "p") "A") "B" =
      .error crypto.DecryptErr.openFailed :=
  crypto_name_binding_decrypt_fails (Bytes.rnd 0) (Bytes.rnd 1) 0 1
    (Bytes.str "p") "A" "B" (by decide)

/-- Claim C5: two calls to `Envelope.Encrypt` with identical master key,
plaintext and name but independent fresh randomness — `GenerateDEK` never
repeats, so the two fresh DEKs differ — produce `EncryptedValue`s that
differ in both the `WrappedDEK` field and the `Ciphertext` field, and each
result independently decrypts back to the original plaintext. -/
theorem crypto_freshness_distinct_and_decryptable (mk d1 d2 : Bytes)
    (n1 n2 m1 m2 : Nat) (pt : Bytes) (name : String) (h : d1 ≠ d2) :
    (crypto.Envelope.Encrypt ⟨mk⟩ d1 n1 n2 pt name).WrappedDEK ≠
      (crypto.Envelope.Encrypt ⟨mk⟩ d2 m1 m2 pt name).WrappedDEK ∧
    (crypto.Envelope.Encrypt ⟨mk⟩ d1 n1 n2 pt name).Ciphertext ≠
      (crypto.Envelope.Encrypt ⟨mk⟩ d2 m1 m2 pt name).Ciphertext ∧
    crypto.Envelope.Decrypt ⟨mk⟩
      (crypto.Envelope.Encrypt ⟨mk⟩ d1 n1 n2 pt name) name = .ok pt ∧
    crypto.Envelope.Decrypt ⟨mk⟩
      (crypto.Envelope.Encrypt ⟨mk⟩ d2 m1 m2 pt name) name = .ok pt := by
  refine ⟨?_, ?_, ?_, ?_⟩
  · simp only [crypto.Envelope.Encrypt]
    intro hcontra
    exact h (by
      have := B64.enc.injEq _ _ ▸ hcontra
      cases hcontra
      rfl)
  · simp only [crypto.Envelope.Encrypt]
    intro hcontra
    exact h (by cases hcontra; rfl)
  · exact crypto_encrypt_decrypt_roundtrip mk d1 n1 n2 pt name
  · exact crypto_encrypt_decrypt_roundtrip mk d2 m1 m2 pt name

/-- Witness for C5 at concrete inputs: two distinct fresh DEKs. -/
theorem crypto_freshness_distinct_and_decryptable_inst :
    (crypto.Envelope.Encrypt ⟨Bytes.rnd 0⟩ (Bytes.rnd 1) 0 1
        (Bytes.str "p") "N").WrappedDEK ≠
      (crypto.Envelope.Encrypt ⟨Bytes.rnd 0⟩ (Bytes.rnd 2) 2 3
        (Bytes.str "p") "N").WrappedDEK ∧
    (crypto.Envelope.Encrypt ⟨Bytes.rnd 0⟩ (Bytes.rnd 1) 0 1
        (Bytes.str "p") "N").Ciphertext ≠
      (crypto.Envelope.Encrypt ⟨Bytes.rnd 0⟩ (Bytes.rnd 2) 2 3
        (Bytes.str "p") "N").Ciphertext ∧
    crypto.Envelope.Decrypt ⟨Bytes.rnd 0⟩
      (crypto.Envelope.Encrypt ⟨Bytes.rnd 0⟩ (Bytes.rnd 1) 0 1
        (Bytes.str "p") "N") "N" = .ok (Bytes.str "p") ∧
    crypto.Envelope.Decrypt ⟨Bytes.rnd 0⟩
      (crypto.Envelope.Encrypt ⟨Bytes.rnd 0⟩ (Bytes.rnd 2) 2 3
        (Bytes.str "p") "N") "N" = .ok (Bytes.str "p") :=
  crypto_freshness_distinct_and_decryptable (Bytes.rnd 0) (Bytes.rnd 1)
    (Bytes.rnd 2) 0 1 2 3 (Bytes.str "p") "N" (by decide)

/-- Claim C7, counterexample: the claim is false on the code in two ways.
First, `"envx:a:b:c"`, whose remainder `"a:b:c"` splits into three
colon-separated segments (not exactly two), is accepted: the code splits
only at the first colon and returns `("a", "b:c")`, with the second
"segment" itself containing a colon.  Second, rejection is not "the single
NotAnEncryptedValue condition": a missing marker gives
"not an encrypted value" while a marker with no further colon gives the
distinct "invalid encrypted value format". -/
theorem crypto_parse_encrypted_value_cex :
    crypto.ParseEncryptedValue
        ['e', 'n', 'v', 'x', ':', 'a', ':', 'b', ':', 'c'] =
      .ok (['a'], ['b', ':', 'c']) ∧
    (crypto.splitAll ['a', ':', 'b', ':', 'c']).length = 3 ∧
    crypto.ParseEncryptedValue ['h', 'i'] =
      .error crypto.EVErr.notAnEncryptedValue ∧
    crypto.ParseEncryptedValue ['e', 'n', 'v', 'x', ':', 'a'] =
      .error crypto.EVErr.invalidFormat ∧
    crypto.EVErr.notAnEncryptedValue ≠ crypto.EVErr.invalidFormat := by
  refine ⟨rfl, by decide, rfl, rfl, by decide⟩

/-- Claim C7 as amended: `ParseEncryptedValue` succeeds exactly on strings
that start with the literal marker `"envx:"` and whose remainder contains
at least one colon; it splits the remainder at its first colon, returning
the (possibly empty) part before it as `WrappedDEK` and everything after
it — which may itself contain further colons — as `Ciphertext`.  A missing
marker is rejected with the `notAnEncryptedValue` condition and a
marker-bearing string without a further colon with the distinct
`invalidFormat` condition; both are parse errors, distinct from every
decryption error (which are values of the separate type
`crypto.DecryptErr`). -/
theorem crypto_parse_encrypted_value_characterization (cs : List Char) :
    (crypto.evTag.isPrefixOf cs → ':' ∈ cs.drop 5 →
      crypto.ParseEncryptedValue cs =
        .ok ((cs.drop 5).takeWhile crypto.notColon,
             ((cs.drop 5).dropWhile crypto.notColon).tail)) ∧
    (crypto.evTag.isPrefixOf cs → ':' ∉ cs.drop 5 →
      crypto.ParseEncryptedValue cs = .error crypto.EVErr.invalidFormat) ∧
    (¬ crypto.evTag.isPrefixOf cs →
      crypto.ParseEncryptedValue cs = .error crypto.EVErr.notAnEncryptedValue) := by
  refine ⟨?_, ?_, ?_⟩
  · intro hp hm
    rw [crypto.ParseEncryptedValue, if_pos hp, splitFirst_mem _ hm]
  · intro hp hm
    rw [crypto.ParseEncryptedValue, if_pos hp,
      (splitFirst_none_iff (cs.drop 5)).mpr hm]
  · intro hp
    rw [crypto.ParseEncryptedValue, if_neg hp]

/-- Witness for the amended C7 at concrete inputs, one per branch. -/
theorem crypto_parse_encrypted_value_characterization_inst :
    crypto.ParseEncryptedValue ['e', 'n', 'v', 'x', ':', 'a', 'b', ':', 'c'] =
      .ok (['a', 'b'], ['c']) ∧
    crypto.ParseEncryptedValue ['e', 'n', 'v', 'x', ':', 'a', 'b'] =
      .error crypto.EVErr.invalidFormat ∧
    crypto.ParseEncryptedValue ['z'] =
      .error crypto.EVErr.notAnEncryptedValue := by
  refine ⟨?_, ?_, ?_⟩
  · exact (crypto_parse_encrypted_value_characterization
      ['e', 'n', 'v', 'x', ':', 'a', 'b', ':', 'c']).1 (by decide) (by decide)
  · exact (crypto_parse_encrypted_value_characterization
      ['e', 'n', 'v', 'x', ':', 'a', 'b']).2.1 (by decide) (by decide)
  · exact (crypto_parse_encrypted_value_characterization ['z']).2.2 (by decide)

namespace envelope

/-- The `Envelope` struct of the agent-envelope package: session metadata,
timestamps (nanoseconds since epoch), the scope, the embedded unwrap
secret, the wrapped session key and the per-name encrypted secrets
(`map[string][]byte`, modelled as an association list). -/
structure Envelope where
  SessionID : String
  CreatedAt : Nat
  ExpiresAt : Nat
  Scope : List String
  UnwrapSecret : Bytes
  WrappedSessionKey : Bytes
  EncryptedSecrets : List (String × Bytes)
deriving DecidableEq, Repr

/-- The `Info` struct returned by `Inspect`. -/
structure Info where
  SessionID : String
  CreatedAt : Nat
  ExpiresAt : Nat
  Scope : List String
  Status : String
  KeysIncluded : Nat
deriving DecidableEq, Repr

/-- The three precondition failures of `Create`, in source order. -/
inductive CreateErr where
  | emptySecrets
  | emptyScope
  | scopeKeyMissing
deriving DecidableEq, Repr

/-- The failures of `Unwrap`: `ErrExpired`, the `ErrDecryption`-wrapped
session-key unwrap failure, and the per-entry decryption failure
(`fmt.Errorf("decrypt %q: ...", key)`). -/
inductive UnwrapErr where
  | expired
  | decryption
  | entryDecrypt (key : String)
deriving DecidableEq, Repr

/-- `Parse` failures: every branch wraps `ErrInvalidFormat`. -/
inductive ParseErr where
  | invalidFormat
deriving DecidableEq, Repr

/-- The `for _, key := range scope` loop of `Create`: for each scoped name,
seal `[]byte(secrets[key])` under the session key with aad = the name
(`encryptWithSessionKey`), drawing a fresh nonce for every entry. -/
def encSecrets (sessionKey : Bytes) (secrets : List (String × String)) (n : Nat) :
    List String → List (String × Bytes)
  | [] => []
  | k :: ks =>
    (k, Bytes.box sessionKey n (.str ((secrets.lookup k).getD "")) k) ::
      encSecrets sessionKey secrets (n + 1) ks

/-- `Create(secrets, scope, ttl)`: reject empty secrets, empty scope, and a
scope entry absent from `secrets`; otherwise generate a session key, an
unwrap secret and a session id (passed in as explicit randomness), wrap
the session key under `deriveWrapKey(unwrapSecret)` with nil aad, encrypt
the scoped subset, and stamp `createdAt = now`, `expiresAt = now + ttl`. -/
def Create (secrets : List (String × String)) (scope : List String) (ttl : Nat)
    (sessionKey unwrapSecret : Bytes) (sid : String) (now n0 : Nat) :
    Except CreateErr Envelope :=
  if secrets.length = 0 then .error .emptySecrets
  else if scope.length = 0 then .error .emptyScope
  else if scope.all (fun k => (secrets.lookup k).isSome) then
    .ok { SessionID := sid
          CreatedAt := now
          ExpiresAt := now + ttl
          Scope := scope
          UnwrapSecret := unwrapSecret
          WrappedSessionKey := Bytes.box (Bytes.wrapKeyOf unwrapSecret) n0 sessionKey ""
          EncryptedSecrets := encSecrets sessionKey secrets (n0 + 1) scope }
  else .error .scopeKeyMissing

/-- The `for key, ciphertext := range e.EncryptedSecrets` loop of `Unwrap`:
open every entry under the session key with aad = the name; the first
failure aborts the whole unwrap. -/
def decryptSecrets (sessionKey : Bytes) :
    List (String × Bytes) → Except UnwrapErr (List (String × String))
  | [] => .ok []
  | (k, c) :: rest =>
    match gcmOpen sessionKey c k with
    | none => .error (.entryDecrypt k)
    | some pt =>
      match decryptSecrets sessionKey rest with
      | .error e => .error e
      | .ok tail => .ok ((k, pt.asStr) :: tail)

/-- `Envelope.Unwrap`: fail with `ErrExpired` when
`time.Now().UTC().After(e.ExpiresAt)` — i.e. strictly `expiresAt < now` —
before touching any cryptography; otherwise re-derive the wrap key, open
the wrapped session key, then open every encrypted secret. -/
def Envelope.Unwrap (e : Envelope) (now : Nat) :
    Except UnwrapErr (List (String × String)) :=
  if e.ExpiresAt < now then .error .expired
  else
    match gcmOpen (Bytes.wrapKeyOf e.UnwrapSecret) e.WrappedSessionKey "" with
    | none => .error .decryption
    | some sessionKey => decryptSecrets sessionKey e.EncryptedSecrets

/-- `Envelope.Inspect`: metadata view; `Status` uses the same strict
`After` comparison as `Unwrap` and performs no decryption. -/
def Envelope.Inspect (e : Envelope) (now : Nat) : Info :=
  { SessionID := e.SessionID
    CreatedAt := e.CreatedAt
    ExpiresAt := e.ExpiresAt
    Scope := e.Scope
    Status := if e.ExpiresAt < now then "expired" else "valid"
    KeysIncluded := e.EncryptedSecrets.length }

/-- A timestamp string in the wire JSON: either a string `time.Parse` with
the RFC3339 layout accepts (carrying the parsed instant) or one it
rejects; a missing or non-string JSON field yields `""`, which `Parse`
rejects, so it is covered by `bad`. -/
inductive TimeStr where
  | rfc3339 (t : Nat)
  | bad (s : String)
deriving DecidableEq, Repr

/-- An element of the wire `scope` JSON array: the
`if str, ok := v.(string)` assertion keeps strings and skips everything
else. -/
inductive JStr where
  | jstr (s : String)
  | nonString
deriving DecidableEq, Repr

/-- A value of the wire `encrypted_secrets` JSON object: either a JSON
string (valid or invalid base64, via `B64`) or a non-string value, which
the `if b64, ok := val.(string)` assertion skips. -/
inductive EsVal where
  | jstr (b : B64)
  | nonString
deriving DecidableEq, Repr

/-- The decoded outer JSON object of a wire token
(`map[string]interface{}` after `json.Unmarshal`), field by field with Go
type-assertion semantics: `Option` is `none` when the key is missing or
the value has the wrong dynamic type (the `, _ :=` / `, ok :=`
patterns). -/
structure Payload where
  session_id : Option String
  created_at : TimeStr
  expires_at : TimeStr
  scope : Option (List JStr)
  unwrap_secret : B64
  wrapped_session_key : B64
  encrypted_secrets : Option (List (String × EsVal))
deriving DecidableEq, Repr

/-- A wire token: either `envelope:v1:` followed by valid base64 of valid
JSON (the decoded payload), or anything `Parse` rejects before reaching
the payload — wrong prefix, invalid base64, or invalid JSON. -/
inductive Token where
  | ok (p : Payload)
  | badWire (s : String)
deriving DecidableEq, Repr

/-- The `scope` extraction loop of `Parse`: keep the string elements. -/
def scopeDecode : Option (List JStr) → List String
  | none => []
  | some l => l.filterMap (fun v =>
      match v with
      | .jstr s => some s
      | .nonString => none)

/-- The `encrypted_secrets` extraction loop of `Parse`: keep the entries
whose value is a string that base64-decodes; entries with non-string
values or invalid base64 are skipped (`continue`) rather than failing the
parse. -/
def esDecode : Option (List (String × EsVal)) → List (String × Bytes)
  | none => []
  | some l => l.filterMap (fun p =>
      match p.2 with
      | .jstr (.enc b) => some (p.1, b)
      | _ => none)

/-- `Parse`: reject a bad wire (prefix/base64/JSON); then require both
timestamps to parse and both key fields to base64-decode, defaulting the
session id to `""` and dropping malformed scope and secret entries. -/
def Parse : Token → Except ParseErr Envelope
  | .badWire _ => .error .invalidFormat
  | .ok p =>
    match p.created_at with
    | .bad _ => .error .invalidFormat
    | .rfc3339 ca =>
      match p.expires_at with
      | .bad _ => .error .invalidFormat
      | .rfc3339 ea =>
        match b64decode p.unwrap_secret with
        | none => .error .invalidFormat
        | some us =>
          match b64decode p.wrapped_session_key with
          | none => .error .invalidFormat
          | some wsk =>
            .ok { SessionID := p.session_id.getD ""
                  CreatedAt := ca
                  ExpiresAt := ea
                  Scope := scopeDecode p.scope
                  UnwrapSecret := us
                  WrappedSessionKey := wsk
                  EncryptedSecrets := esDecode p.encrypted_secrets }

/-- `Envelope.String`: marshal every field into the wire JSON — byte
fields base64-encoded, timestamps formatted with `time.RFC3339` (whole
seconds, hence `truncSec`) — then base64 the JSON and prepend
`envelope:v1:`; a well-formed token by construction. -/
def Envelope.String (e : Envelope) : Token :=
  .ok { session_id := some e.SessionID
        created_at := .rfc3339 (truncSec e.CreatedAt)
        expires_at := .rfc3339 (truncSec e.ExpiresAt)
        scope := some (e.Scope.map .jstr)
        unwrap_secret := .enc e.UnwrapSecret
        wrapped_session_key := .enc e.WrappedSessionKey
        encrypted_secrets := some (e.EncryptedSecrets.map (fun p => (p.1, .jstr (.enc p.2)))) }

end envelope

section EnvelopeLemmas

theorem scopeDecode_map (l : List String) :
    envelope.scopeDecode (some (l.map envelope.JStr.jstr)) = l := by
  simp only [envelope.scopeDecode]
  induction l with
  | nil => rfl
  | cons a t ih => simp [List.filterMap_cons, ih]

theorem esDecode_map (l : List (String × Bytes)) :
    envelope.esDecode
      (some (l.map (fun p => (p.1, envelope.EsVal.jstr (B64.enc p.2))))) = l := by
  simp only [envelope.esDecode]
  induction l with
  | nil => rfl
  | cons a t ih => simp [List.filterMap_cons, ih]

/-- Serialize-then-parse recovers the envelope with both timestamps
truncated to whole seconds; every other field round-trips exactly. -/
theorem parse_string_eq (e : envelope.Envelope) :
    envelope.Parse (envelope.Envelope.String e) =
      .ok { e with CreatedAt := truncSec e.CreatedAt
                   ExpiresAt := truncSec e.ExpiresAt } := by
  simp [envelope.Parse, envelope.Envelope.String, b64decode, scopeDecode_map,
    esDecode_map]

theorem decryptSecrets_ne_expired (sk : Bytes) (l : List (String × Bytes)) :
    envelope.decryptSecrets sk l ≠ .error envelope.UnwrapErr.expired := by
  induction l with
  | nil => intro h; exact Except.noConfusion h
  | cons a t ih =>
    obtain ⟨k, c⟩ := a
    rw [envelope.decryptSecrets]
    cases hg : gcmOpen sk c k with
    | none =>
      intro h
      injection h with he
      exact envelope.UnwrapErr.noConfusion he
    | some pt =>
      cases hd : envelope.decryptSecrets sk t with
      | error e2 =>
        intro h
        injection h with he
        exact ih (by rw [hd, he])
      | ok tail =>
        intro h
        exact Except.noConfusion h

theorem decryptSecrets_encSecrets (sk : Bytes) (secrets : List (String × String))
    (n : Nat) (scope : List String) :
    envelope.decryptSecrets sk (envelope.encSecrets sk secrets n scope) =
      .ok (scope.map (fun k => (k, (secrets.lookup k).getD ""))) := by
  induction scope generalizing n with
  | nil => rfl
  | cons k ks ih =>
    rw [envelope.encSecrets, envelope.decryptSecrets]
    simp [gcmOpen, Bytes.asStr, ih (n + 1)]

theorem lookup_map_self (scope : List String) (f : String → String) (x : String) :
    (scope.map (fun k => (k, f k))).lookup x =
      if x ∈ scope then some (f x) else none := by
  induction scope with
  | nil => simp [List.lookup]
  | cons a t ih =>
    by_cases hxa : x = a
    · subst hxa
      simp [List.lookup]
    · have hb : (x == a) = false := beq_eq_false_iff_ne.mpr hxa
      simp [List.lookup, hb, hxa, ih]

end EnvelopeLemmas

/-- Claim C6, counterexample: at `now = expiresAt` the claim demands the
bundle be Expired (`now ≥ expiresAt`), with `Unwrap` failing with
`Expired` and `Inspect` reporting `"expired"`.  The code compares with the
strict `time.Now().After(expiresAt)`, so at the boundary the bundle is
still treated as valid: on an envelope whose `WrappedSessionKey` is not
even a seal output, `Unwrap` proceeds into cryptography and fails with the
decryption error instead, and `Inspect` reports `"valid"`. -/
theorem envelope_expiry_boundary_cex :
    envelope.Envelope.Unwrap
        { SessionID := "s", CreatedAt := 0, ExpiresAt := 100, Scope := ["K"],
          UnwrapSecret := Bytes.rnd 0, WrappedSessionKey := Bytes.str "junk",
          EncryptedSecrets := [] } 100 =
      .error envelope.UnwrapErr.decryption ∧
    (envelope.Envelope.Inspect
        { SessionID := "s", CreatedAt := 0, ExpiresAt := 100, Scope := ["K"],
          UnwrapSecret := Bytes.rnd 0, WrappedSessionKey := Bytes.str "junk",
          EncryptedSecrets := [] } 100).Status = "valid" :=
  ⟨rfl, rfl⟩

/-- Claim C6 as amended: the bundle is Valid when `now ≤ expiresAt` and
Expired exactly when `now` is strictly after `expiresAt` (`now >
expiresAt`); in exactly that case `Unwrap` fails with `Expired` — for
every envelope, including ones whose key material could never decrypt, so
the check precedes all cryptography — and `Inspect` reports status
`"expired"`; `Unwrap` and `Inspect` use the same strict comparison. -/
theorem envelope_expiry_strict (e : envelope.Envelope) (now : Nat) :
    (envelope.Envelope.Unwrap e now = .error envelope.UnwrapErr.expired ↔
      e.ExpiresAt < now) ∧
    ((envelope.Envelope.Inspect e now).Status = "expired" ↔ e.ExpiresAt < now) ∧
    ((envelope.Envelope.Inspect e now).Status = "valid" ↔ ¬ e.ExpiresAt < now) := by
  by_cases hx : e.ExpiresAt < now
  · refine ⟨by simp [envelope.Envelope.Unwrap, hx],
      by simp [envelope.Envelope.Inspect, hx], ?_⟩
    simp only [envelope.Envelope.Inspect, if_pos hx]
    constructor
    · intro h
      exact absurd h (by decide)
    · intro h
      exact absurd hx h
  · refine ⟨?_, ?_, ?_⟩
    · rw [envelope.Envelope.Unwrap, if_neg hx]
      constructor
      · intro h
        exfalso
        cases hg : gcmOpen (Bytes.wrapKeyOf e.UnwrapSecret) e.WrappedSessionKey ""
          with
        | none =>
          rw [hg] at h
          injection h with he
          exact envelope.UnwrapErr.noConfusion he
        | some sk =>
          rw [hg] at h
          exact decryptSecrets_ne_expired sk e.EncryptedSecrets h
      · intro h
        exact absurd h hx
    · simp only [envelope.Envelope.Inspect, if_neg hx]
      constructor
      · intro h
        exact absurd h (by decide)
      · intro h
        exact absurd h hx
    · simp [envelope.Envelope.Inspect, hx]

/-- Claim C9: parsing a token whose wire layers (prefix, base64 payload,
outer JSON) and timestamps are well-formed succeeds for every
`encrypted_secrets` object — including ones with values that are not
valid base64 — and `esDecode` keeps exactly the entries whose value is a
string with valid base64; in particular an entry with invalid base64 is
silently omitted, leaving the rest of the parse unchanged. -/
theorem envelope_parse_drops_invalid_base64 (sid : Option String) (t1 t2 : Nat)
    (scope : Option (List envelope.JStr)) (us wsk : Bytes)
    (es : Option (List (String × envelope.EsVal))) :
    envelope.Parse (.ok { session_id := sid, created_at := (.rfc3339 t1),
                          expires_at := (.rfc3339 t2), scope := scope,
                          unwrap_secret := (.enc us),
                          wrapped_session_key := (.enc wsk),
                          encrypted_secrets := es }) =
      .ok { SessionID := sid.getD "", CreatedAt := t1, ExpiresAt := t2,
            Scope := envelope.scopeDecode scope, UnwrapSecret := us,
            WrappedSessionKey := wsk,
            EncryptedSecrets := envelope.esDecode es } ∧
    (∀ k s rest,
      envelope.esDecode (some ((k, envelope.EsVal.jstr (B64.bad s)) :: rest)) =
        envelope.esDecode (some rest)) := by
  constructor
  · rfl
  · intro k s rest
    simp [envelope.esDecode, List.filterMap_cons]

/-- A concrete envelope with sub-second timestamps, used to instantiate
the serialization round-trip claim. -/
def sampleEnvTrunc : envelope.Envelope :=
  { SessionID := "sid", CreatedAt := 2500000000, ExpiresAt := 1500000000,
    Scope := ["A"], UnwrapSecret := Bytes.rnd 0,
    WrappedSessionKey := Bytes.box (Bytes.wrapKeyOf (Bytes.rnd 0)) 0 (Bytes.rnd 1) "",
    EncryptedSecrets := [("A", Bytes.box (Bytes.rnd 1) 1 (Bytes.str "1") "A")] }

/-- Claim C10: `String` followed by `Parse` is the identity on
`SessionID`, `Scope`, `UnwrapSecret`, `WrappedSessionKey` and
`EncryptedSecrets`, while both timestamps come back truncated to the
containing second (RFC3339 formatting keeps whole seconds); the truncated
expiry is never later than the original, and whenever the original
carried a sub-second component there is an instant at which the parsed
envelope is already expired while the original is not — the parsed
envelope can be observed as expired up to one second earlier. -/
theorem envelope_string_parse_field_roundtrip (e : envelope.Envelope) :
    envelope.Parse (envelope.Envelope.String e) =
      .ok { e with CreatedAt := truncSec e.CreatedAt
                   ExpiresAt := truncSec e.ExpiresAt } ∧
    truncSec e.ExpiresAt ≤ e.ExpiresAt ∧
    (truncSec e.ExpiresAt ≠ e.ExpiresAt →
      ∃ now, truncSec e.ExpiresAt < now ∧ ¬ e.ExpiresAt < now) := by
  refine ⟨parse_string_eq e, Nat.div_mul_le_self _ _, ?_⟩
  intro hne
  have hle : truncSec e.ExpiresAt ≤ e.ExpiresAt := Nat.div_mul_le_self _ _
  have hlt : truncSec e.ExpiresAt < e.ExpiresAt := lt_of_le_of_ne hle hne
  exact ⟨truncSec e.ExpiresAt + 1, Nat.lt_succ_self _, by omega⟩

/-- Witness for C10 on `sampleEnvTrunc`, whose expiry 1.5 s truncates to
1 s: the round trip and the earlier-expiry observation, concretely. -/
theorem envelope_string_parse_field_roundtrip_inst :
    envelope.Parse (envelope.Envelope.String sampleEnvTrunc) =
      .ok { sampleEnvTrunc with
            CreatedAt := truncSec sampleEnvTrunc.CreatedAt
            ExpiresAt := truncSec sampleEnvTrunc.ExpiresAt } ∧
    (∃ now, truncSec sampleEnvTrunc.ExpiresAt < now ∧
      ¬ sampleEnvTrunc.ExpiresAt < now) := by
  have h := envelope_string_parse_field_roundtrip sampleEnvTrunc
  exact ⟨h.1, h.2.2 (by decide)⟩

section CreateLemmas

theorem create_ok (secrets : List (String × String)) (scope : List String)
    (ttl : Nat) (sk us : Bytes) (sid : String) (now n0 : Nat)
    (h1 : secrets ≠ []) (h2 : scope ≠ [])
    (h3 : ∀ k ∈ scope, (secrets.lookup k).isSome) :
    envelope.Create secrets scope ttl sk us sid now n0 =
      .ok { SessionID := sid
            CreatedAt := now
            ExpiresAt := now + ttl
            Scope := scope
            UnwrapSecret := us
            WrappedSessionKey := Bytes.box (Bytes.wrapKeyOf us) n0 sk ""
            EncryptedSecrets := envelope.encSecrets sk secrets (n0 + 1) scope } := by
  have hl1 : ¬ secrets.length = 0 := by
    simpa [List.length_eq_zero] using h1
  have hl2 : ¬ scope.length = 0 := by
    simpa [List.length_eq_zero] using h2
  have hall : scope.all (fun k => (secrets.lookup k).isSome) = true :=
    List.all_eq_true.mpr (fun k hk => h3 k hk)
  rw [envelope.Create, if_neg hl1, if_neg hl2, if_pos hall]

theorem unwrap_create_shape (sid : String) (ca ea : Nat) (scope : List String)
    (us sk : Bytes) (n0 : Nat) (secrets : List (String × String)) (nowU : Nat)
    (h : ¬ ea < nowU) :
    envelope.Envelope.Unwrap
      { SessionID := sid, CreatedAt := ca, ExpiresAt := ea, Scope := scope,
        UnwrapSecret := us,
        WrappedSessionKey := Bytes.box (Bytes.wrapKeyOf us) n0 sk "",
        EncryptedSecrets := envelope.encSecrets sk secrets (n0 + 1) scope } nowU =
      .ok (scope.map (fun k => (k, (secrets.lookup k).getD ""))) := by
  simp [envelope.Envelope.Unwrap, gcmOpen, h, decryptSecrets_encSecrets]

end CreateLemmas

/-- Claim C3: for every non-empty secrets map, every non-empty scope whose
entries all occur among the secrets' keys, and every positive ttl,
`Create` succeeds, and serializing with `String`, re-reading with `Parse`
and unwrapping at any instant not after the (truncated) expiry yields
exactly the restriction of the secrets map to the scope: looking up any
scoped name gives its original plaintext and looking up any name outside
the scope gives nothing. -/
theorem envelope_create_string_parse_unwrap_scoped
    (secrets : List (String × String)) (scope : List String) (ttl : Nat)
    (sk us : Bytes) (sid : String) (now n0 nowU : Nat)
    (h1 : secrets ≠ []) (h2 : scope ≠ [])
    (h3 : ∀ k ∈ scope, (secrets.lookup k).isSome)
    (h4 : 0 < ttl)
    (h5 : nowU ≤ truncSec (now + ttl)) :
    ∃ env parsed result,
      envelope.Create secrets scope ttl sk us sid now n0 = .ok env ∧
      envelope.Parse (envelope.Envelope.String env) = .ok parsed ∧
      envelope.Envelope.Unwrap parsed nowU = .ok result ∧
      ∀ name, result.lookup name =
        if name ∈ scope then secrets.lookup name else none := by
  refine ⟨_, _, scope.map (fun k => (k, (secrets.lookup k).getD "")),
    create_ok secrets scope ttl sk us sid now n0 h1 h2 h3, parse_string_eq _, ?_, ?_⟩
  · exact unwrap_create_shape sid (truncSec now) (truncSec (now + ttl)) scope us
      sk n0 secrets nowU (Nat.not_lt.mpr h5)
  · intro name
    rw [lookup_map_self]
    by_cases hmem : name ∈ scope
    · rw [if_pos hmem, if_pos hmem]
      obtain ⟨v, hv⟩ := Option.isSome_iff_exists.mp (h3 name hmem)
      rw [hv]
      rfl
    · rw [if_neg hmem, if_neg hmem]

/-- Witness for C3 at the spec's own example: secrets
`{"A":"1","B":"2"}`, scope `["A"]`, ttl one hour, unwrapped one second
after creation. -/
theorem envelope_create_string_parse_unwrap_scoped_inst :
    ∃ env parsed result,
      envelope.Create [("A", "1"), ("B", "2")] ["A"] 3600000000000
        (Bytes.rnd 1) (Bytes.rnd 2) "sid" 1000000000 0 = .ok env ∧
      envelope.Parse (envelope.Envelope.String env) = .ok parsed ∧
      envelope.Envelope.Unwrap parsed 2000000000 = .ok result ∧
      ∀ name, result.lookup name =
        if name ∈ ["A"] then ([("A", "1"), ("B", "2")]).lookup name else none :=
  envelope_create_string_parse_unwrap_scoped [("A", "1"), ("B", "2")] ["A"]
    3600000000000 (Bytes.rnd 1) (Bytes.rnd 2) "sid" 1000000000 0 2000000000
    (by decide) (by decide) (by decide) (by decide) (by decide)

namespace audit

/-- The caller-visible fields of an audit `Entry` (struct `Entry` of the
audit package) apart from `PrevHash`: timestamp, operation and the
optional scope/session/ttl/command/exit/tool fields set through the
functional options. -/
structure EntryMeta where
  ts : Nat
  op : String
  scope : List String
  sid : String
  ttl : String
  cmd : String
  exitCode : Int
  tool : String
deriving DecidableEq, Repr

/-- One raw line of the audit log file, identified by the information
`Verify` extracts from its bytes.  `entryLit m s` is the
`json.Marshal` output of an entry whose `prev_hash` field holds the
literal string `s` (the genesis entry uses `s = ""`); `entryHash m prev`
is the marshal output of an entry whose `prev_hash` field is the hex
SHA-256 digest of the exact bytes of the line `prev`; `plain s` is a line
that `json.Unmarshal` rejects.  Two standard symbolic-hash assumptions are
baked in: SHA-256 is collision-free (two hex digests are equal exactly
when the hashed lines are equal), and a literal string stored in
`prev_hash` is never itself the digest of a line (`entryHash` is the only
way to hold a digest). -/
inductive Line where
  | entryLit (m : EntryMeta) (prevLit : String)
  | entryHash (m : EntryMeta) (prev : Line)
  | plain (s : String)
deriving DecidableEq, Repr

/-- Whether a line parses as JSON into an `Entry`. -/
def Line.isEntry : Line → Bool
  | .plain _ => false
  | _ => true

/-- The entry `Log` writes: `lastHash` hashes the last line of the file —
the empty string when the file is absent, empty, or ends in an empty
line — and the new entry stores that value in `prev_hash`. -/
def logNext (lines : List Line) (m : EntryMeta) : Line :=
  match lines.getLast? with
  | none => .entryLit m ""
  | some l => if l = .plain "" then .entryLit m "" else .entryHash m l

/-- `Log` (audit.go lines 76–133): serialize the new entry and append it
as one line; the mutex makes read-last-line/hash/append one atomic step,
which the sequential model reflects. -/
def logAppend (lines : List Line) (m : EntryMeta) : List Line :=
  lines ++ [logNext lines m]

/-- A sequence of `Log` calls starting from an absent or empty log. -/
def appendAll (ms : List EntryMeta) : List Line :=
  ms.foldl logAppend []

/-- The result struct of `Verify`. -/
structure VerifyResult where
  TotalEntries : Nat
  Breaks : List Nat
  FirstModified : Nat
deriving DecidableEq, Repr

/-- The `for i := 1; i < len(lines)` loop of `Verify`, carrying the
previous raw line and the 1-based position of the current line: a line
that fails to parse is a break and the loop continues; a parsed entry is a
break unless its stored `prev_hash` equals the hex SHA-256 of the
previous line's bytes (symbolically: unless it is `entryHash` of exactly
that previous line). -/
def chainBreaks : Line → List Line → Nat → List Nat
  | _, [], _ => []
  | prev, cur :: rest, pos =>
    match cur with
    | .plain _ => pos :: chainBreaks cur rest (pos + 1)
    | .entryLit _ _ => pos :: chainBreaks cur rest (pos + 1)
    | .entryHash _ p =>
      if p = prev then chainBreaks cur rest (pos + 1)
      else pos :: chainBreaks cur rest (pos + 1)

/-- `Verify` (audit.go lines 212–262): count all lines; on an empty log
return zeros; if the first line fails to parse, set `FirstModified := 1`
and return immediately; otherwise record a break at position 1 when the
first entry's `prev_hash` is non-empty, then run the adjacent-pair loop. -/
def Verify : List Line → VerifyResult
  | [] => { TotalEntries := 0, Breaks := [], FirstModified := 0 }
  | first :: rest =>
    match first with
    | .plain _ =>
      { TotalEntries := rest.length + 1, Breaks := [], FirstModified := 1 }
    | .entryLit m s =>
      { TotalEntries := rest.length + 1
        Breaks := (if s = "" then [] else [1]) ++ chainBreaks (.entryLit m s) rest 2
        FirstModified := 0 }
    | .entryHash m p =>
      { TotalEntries := rest.length + 1
        Breaks := [1] ++ chainBreaks (.entryHash m p) rest 2
        FirstModified := 0 }

/-- `cur` correctly chains onto `prev`: it parses and its stored
`prev_hash` is the digest of `prev`. -/
def stepOk (prev cur : Line) : Bool :=
  match cur with
  | .entryHash _ p => decide (p = prev)
  | _ => false

/-- Every line of the list chains correctly onto its predecessor, the
first onto `prev`. -/
def chainedFrom : Line → List Line → Bool
  | _, [] => true
  | prev, cur :: rest => stepOk prev cur && chainedFrom cur rest

/-- The hash-chain invariant of a whole log: a genesis first entry
(`prev_hash = ""`) and every later line chained onto its predecessor. -/
def goodLog : List Line → Bool
  | [] => true
  | first :: rest =>
    match first with
    | .entryLit _ s => decide (s = "") && chainedFrom first rest
    | _ => false

/-- The last line, defaulting to `prev`. -/
def lastD (prev : Line) (xs : List Line) : Line := (xs.getLast?).getD prev

end audit

section AuditLemmas

theorem audit_getLast_cons_some (x : audit.Line) (xs : List audit.Line) :
    ∃ z, (x :: xs).getLast? = some z := by
  induction xs generalizing x with
  | nil => exact ⟨x, rfl⟩
  | cons y ys ih =>
    obtain ⟨z, hz⟩ := ih y
    exact ⟨z, by rw [List.getLast?_cons_cons]; exact hz⟩

theorem audit_mem_of_getLast (xs : List audit.Line) (z : audit.Line)
    (h : xs.getLast? = some z) : z ∈ xs := by
  induction xs with
  | nil => cases h
  | cons x xs ih =>
    cases xs with
    | nil =>
      injection h with h2
      subst h2
      exact List.mem_cons_self _ _
    | cons y ys =>
      rw [List.getLast?_cons_cons] at h
      exact List.mem_cons_of_mem _ (ih h)

theorem audit_lastD_cons (prev x : audit.Line) (xs : List audit.Line) :
    audit.lastD prev (x :: xs) = audit.lastD x xs := by
  cases xs with
  | nil => rfl
  | cons y ys =>
    obtain ⟨z, hz⟩ := audit_getLast_cons_some y ys
    simp [audit.lastD, List.getLast?_cons_cons, hz]

theorem audit_getLast_eq_lastD (first : audit.Line) (rest : List audit.Line) :
    (first :: rest).getLast? = some (audit.lastD first rest) := by
  induction rest generalizing first with
  | nil => rfl
  | cons y ys ih => rw [audit_lastD_cons]; exact ih y

theorem chainedFrom_append (xs : List audit.Line) (prev l : audit.Line) :
    audit.chainedFrom prev (xs ++ [l]) =
      (audit.chainedFrom prev xs && audit.stepOk (audit.lastD prev xs) l) := by
  induction xs generalizing prev with
  | nil => simp [audit.chainedFrom, audit.lastD]
  | cons x xs ih =>
    rw [List.cons_append, audit.chainedFrom, audit.chainedFrom, ih x,
      audit_lastD_cons, Bool.and_assoc]

theorem chainedFrom_all_entries (prev : audit.Line) (xs : List audit.Line)
    (h : audit.chainedFrom prev xs = true) :
    ∀ l ∈ xs, ∃ m p, l = audit.Line.entryHash m p := by
  induction xs generalizing prev with
  | nil => intro l hl; cases hl
  | cons x xs ih =>
    rw [audit.chainedFrom, Bool.and_eq_true] at h
    intro l hl
    rcases List.mem_cons.mp hl with h1 | h2
    · subst h1
      cases l with
      | entryHash m p => exact ⟨m, p, rfl⟩
      | entryLit m s => exact absurd h.1 (by simp [audit.stepOk])
      | plain s => exact absurd h.1 (by simp [audit.stepOk])
    · exact ih x h.2 l h2

theorem goodLog_append_step (xs : List audit.Line) (m : audit.EntryMeta)
    (h : audit.goodLog xs = true) :
    audit.goodLog (audit.logAppend xs m) = true := by
  cases xs with
  | nil => rfl
  | cons first rest =>
    cases first with
    | entryHash m0 p => exact absurd h (by simp [audit.goodLog])
    | plain s => exact absurd h (by simp [audit.goodLog])
    | entryLit m0 s =>
      rw [audit.goodLog, Bool.and_eq_true, decide_eq_true_eq] at h
      obtain ⟨hs, hchain⟩ := h
      subst hs
      have hlast : (audit.Line.entryLit m0 "" :: rest).getLast? =
          some (audit.lastD (.entryLit m0 "") rest) :=
        audit_getLast_eq_lastD _ _
      have hnotplain : ∀ s2, audit.lastD (.entryLit m0 "") rest ≠ .plain s2 := by
        intro s2
        cases hr : rest.getLast? with
        | none =>
          have : rest = [] := by
            cases rest with
            | nil => rfl
            | cons y ys => rw [audit_getLast_eq_lastD] at hr; cases hr
          subst this
          simp [audit.lastD]
        | some l2 =>
          have hmem : l2 ∈ rest := audit_mem_of_getLast rest l2 hr
          obtain ⟨m2, p2, hl2⟩ := chainedFrom_all_entries _ _ hchain l2 hmem
          simp [audit.lastD, hr, hl2]
      have hnext : audit.logNext (audit.Line.entryLit m0 "" :: rest) m =
          .entryHash m (audit.lastD (.entryLit m0 "") rest) := by
        rw [audit.logNext, hlast]
        exact if_neg (hnotplain "")
      rw [audit.logAppend, hnext, List.cons_append, audit.goodLog]
      rw [chainedFrom_append]
      simp [hchain, audit.stepOk]

theorem goodLog_appendAll_from (ms : List audit.EntryMeta)
    (acc : List audit.Line) (h : audit.goodLog acc = true) :
    audit.goodLog (ms.foldl audit.logAppend acc) = true := by
  induction ms generalizing acc with
  | nil => exact h
  | cons m ms ih => exact ih _ (goodLog_append_step acc m h)

theorem chainBreaks_of_chainedFrom (xs : List audit.Line) (prev : audit.Line)
    (pos : Nat) (h : audit.chainedFrom prev xs = true) :
    audit.chainBreaks prev xs pos = [] := by
  induction xs generalizing prev pos with
  | nil => rfl
  | cons x xs ih =>
    rw [audit.chainedFrom, Bool.and_eq_true] at h
    cases x with
    | entryHash m p =>
      have hp : p = prev := by
        have := h.1
        rw [audit.stepOk, decide_eq_true_eq] at this
        exact this
      rw [audit.chainBreaks]
      rw [if_pos hp]
      exact ih _ _ h.2
    | entryLit m s => exact absurd h.1 (by simp [audit.stepOk])
    | plain s => exact absurd h.1 (by simp [audit.stepOk])

theorem verify_of_goodLog (lines : List audit.Line)
    (h : audit.goodLog lines = true) :
    audit.Verify lines =
      { TotalEntries := lines.length, Breaks := [], FirstModified := 0 } := by
  cases lines with
  | nil => rfl
  | cons first rest =>
    cases first with
    | entryHash m0 p => exact absurd h (by simp [audit.goodLog])
    | plain s => exact absurd h (by simp [audit.goodLog])
    | entryLit m0 s =>
      rw [audit.goodLog, Bool.and_eq_true, decide_eq_true_eq] at h
      obtain ⟨hs, hchain⟩ := h
      subst hs
      rw [audit.Verify]
      rw [chainBreaks_of_chainedFrom rest _ 2 hchain]
      simp

theorem appendAll_length (ms : List audit.EntryMeta) (acc : List audit.Line) :
    (ms.foldl audit.logAppend acc).length = acc.length + ms.length := by
  induction ms generalizing acc with
  | nil => simp
  | cons m ms ih =>
    rw [List.foldl_cons, ih]
    simp [audit.logAppend]
    omega

theorem appendAll_head (ms : List audit.EntryMeta) (acc : List audit.Line)
    (h : acc ≠ []) : (ms.foldl audit.logAppend acc).head? = acc.head? := by
  induction ms generalizing acc with
  | nil => rfl
  | cons m ms ih =>
    rw [List.foldl_cons]
    rw [ih (audit.logAppend acc m) (by simp [audit.logAppend])]
    cases acc with
    | nil => exact absurd rfl h
    | cons a t => rfl

theorem mem_chainBreaks_of_plain (rest : List audit.Line) (prev : audit.Line)
    (pos i : Nat) (s : String) (h : rest.get? i = some (.plain s)) :
    (pos + i) ∈ audit.chainBreaks prev rest pos := by
  induction rest generalizing prev pos i with
  | nil => cases h
  | cons cur rest ih =>
    cases i with
    | zero =>
      have hc : cur = .plain s := by
        injection h
      subst hc
      simp [audit.chainBreaks]
    | succ j =>
      have h2 : rest.get? j = some (audit.Line.plain s) := h
      have hmem : (pos + 1 + j) ∈ audit.chainBreaks cur rest (pos + 1) :=
        ih cur (pos + 1) j h2
      have hx : pos + (j + 1) = pos + 1 + j := by omega
      rw [hx]
      cases cur with
      | plain t => exact List.mem_cons_of_mem _ hmem
      | entryLit m t => exact List.mem_cons_of_mem _ hmem
      | entryHash m p =>
        rw [audit.chainBreaks]
        by_cases hp : p = prev
        · rw [if_pos hp]
          exact hmem
        · rw [if_neg hp]
          exact List.mem_cons_of_mem _ hmem

end AuditLemmas

/-- Claim C4: starting from an absent or empty audit log, after any
sequence of appends by `Log` (with no external modification of the file)
`Verify` reports `TotalEntries` equal to the number of appends, an empty
break list and no first-line modification; the log satisfies the chain
invariant — a genesis first entry and every entry's stored `prev_hash`
equal to the digest of the exact bytes of the preceding line
(`goodLog`) — and whenever at least one append happened, the first
entry ever appended carries `prev_hash = ""`. -/
theorem audit_append_chain_verify_clean (ms : List audit.EntryMeta) :
    audit.Verify (audit.appendAll ms) =
      { TotalEntries := ms.length, Breaks := [], FirstModified := 0 } ∧
    audit.goodLog (audit.appendAll ms) = true ∧
    ∀ m rest, (audit.appendAll (m :: rest)).head? =
      some (audit.Line.entryLit m "") := by
  have hgood : audit.goodLog (audit.appendAll ms) = true :=
    goodLog_appendAll_from ms [] rfl
  refine ⟨?_, hgood, ?_⟩
  · rw [verify_of_goodLog _ hgood]
    have : (audit.appendAll ms).length = ms.length := by
      have := appendAll_length ms []
      simpa [audit.appendAll] using this
    rw [audit.appendAll] at this ⊢
    rw [this]
  · intro m rest
    rw [audit.appendAll, List.foldl_cons]
    rw [appendAll_head rest (audit.logAppend [] m) (by simp [audit.logAppend])]
    rfl

/-- Claim C8, counterexample: on a log whose first line fails to parse as
JSON, the claim demands a break recorded at position 1 and verification
continuing to the remaining adjacent pairs (here line 2 is also
unparsable, so the claim demands breaks at 1 and 2).  The code instead
sets `FirstModified := 1` and returns immediately: the break list is
empty and nothing after line 1 is examined. -/
theorem audit_verify_first_line_cex :
    (audit.Verify [audit.Line.plain "notjson", audit.Line.plain "alsobad"]).Breaks
        = [] ∧
    (audit.Verify [audit.Line.plain "notjson",
        audit.Line.plain "alsobad"]).FirstModified = 1 ∧
    (audit.Verify [audit.Line.plain "notjson",
        audit.Line.plain "alsobad"]).TotalEntries = 2 :=
  ⟨rfl, rfl, rfl⟩

/-- Claim C8 as amended: when the first line parses, every later line that
fails to parse as JSON is recorded as a break at its 1-based position and
verification continues past it (all positions are reported, not just the
first); when the first line itself fails to parse, `Verify` instead
reports it through the separate `FirstModified := 1` field and returns
immediately, recording no breaks and checking no pairs.  In both cases
`Verify` is a pure function of the lines — it never mutates the log — and
returns its report rather than an error. -/
theorem audit_verify_unparsable_lines :
    (∀ s rest, audit.Verify (audit.Line.plain s :: rest) =
      { TotalEntries := rest.length + 1, Breaks := [], FirstModified := 1 }) ∧
    (∀ first rest i s, first.isEntry = true →
      rest.get? i = some (audit.Line.plain s) →
      (i + 2) ∈ (audit.Verify (first :: rest)).Breaks) := by
  constructor
  · intro s rest
    rfl
  · intro first rest i s hfirst hget
    have hmem : (2 + i) ∈ audit.chainBreaks first rest 2 :=
      mem_chainBreaks_of_plain rest first 2 i s hget
    have hx : i + 2 = 2 + i := by omega
    rw [hx]
    cases first with
    | plain t => exact absurd hfirst (by simp [audit.Line.isEntry])
    | entryLit m t =>
      rw [audit.Verify]
      exact List.mem_append_right _ hmem
    | entryHash m p =>
      rw [audit.Verify]
      exact List.mem_append_right _ hmem

/-- A concrete audit entry for the witnesses. -/
def sampleMeta : audit.EntryMeta :=
  { ts := 0, op := "set", scope := [], sid := "", ttl := "", cmd := "",
    exitCode := 0, tool := "" }

/-- Witness for the amended C8: a lone unparsable first line, and a log
whose second line is unparsable and is reported at position 2. -/
theorem audit_verify_unparsable_lines_inst :
    audit.Verify [audit.Line.plain "x"] =
      { TotalEntries := 1, Breaks := [], FirstModified := 1 } ∧
    (0 + 2) ∈ (audit.Verify [audit.Line.entryLit sampleMeta "",
      audit.Line.plain "y"]).Breaks :=
  ⟨audit_verify_unparsable_lines.1 "x" [],
   audit_verify_unparsable_lines.2 (audit.Line.entryLit sampleMeta "")
     [audit.Line.plain "y"] 0 "y" rfl rfl⟩

end Openenvx
